import Mathlib

/-!
Verification of the clean-modules engine (main.go): a shallow embedding of
`calculateDirSize`, `findNodeModules`, `formatSize`, `deleteDirectory` and the
bounded deletion worker pool, together with proofs of the specified properties.

The filesystem is modelled as an immutable tree.  A node is a file (with a
size), a directory (whose listing may fail, modelling a `readDirnames`
failure), or a broken entry (modelling an `lstat` failure).  Error payloads
are strings standing for the Go error values.
-/

inductive FSNode where
  | file (name : String) (size : Int)
  | dir (name : String) (readErr : Option String) (children : List FSNode)
  | broken (name : String) (err : String)

def FSNode.name : FSNode → String
  | .file n _ => n
  | .dir n _ _ => n
  | .broken n _ => n

def FSNode.isDir : FSNode → Bool
  | .dir _ _ _ => true
  | _ => false

def FSNode.size : FSNode → Int
  | .file _ sz => sz
  | _ => 0

/-- What a Go `filepath.WalkFunc` may return: `nil`, `filepath.SkipDir`, or an
error. -/
inductive WalkCtl where
  | ok
  | skipDir
  | fail (e : String)
deriving DecidableEq

/-- A walk callback: state, path (as segments), the node when `lstat`
succeeded (`none` models `info == nil`), and the error argument. -/
def WalkFn (σ : Type) : Type :=
  σ → List String → Option FSNode → Option String → σ × WalkCtl

mutual

/-- Embedding of Go `filepath.walk` on a node.  For a `broken` node this is
the top-level `lstat`-failure callback (only `goWalk` calls it on `broken`;
inside a directory listing `walkList` performs the per-child call itself,
exactly as the Go loop does). -/
def walkNode (fn : WalkFn σ) (s : σ) (path : List String) : FSNode → σ × WalkCtl
  | .file n sz => fn s path (some (.file n sz)) none
  | .broken _ e => fn s path none (some e)
  | .dir n (some e) cs =>
      -- readDirnames failed: walkFn is called with the error and its result is
      -- returned regardless (Go: `if err != nil || err1 != nil { return err1 }`).
      fn s path (some (.dir n (some e) cs)) (some e)
  | .dir n none cs =>
      match fn s path (some (.dir n none cs)) none with
      | (s1, .ok) => walkList fn s1 path cs
      | (s1, c) => (s1, c)

/-- Embedding of the loop over a directory listing in Go `filepath.walk`. -/
def walkList (fn : WalkFn σ) (s : σ) (path : List String) : List FSNode → σ × WalkCtl
  | [] => (s, .ok)
  | c :: rest =>
    match c with
    | .broken n e =>
        -- lstat of the child failed: call walkFn with a nil info; abort only
        -- on a real error (Go: `err != nil && err != SkipDir`).
        match fn s (path ++ [n]) none (some e) with
        | (s1, .fail e1) => (s1, .fail e1)
        | (s1, _) => walkList fn s1 path rest
    | t =>
        match walkNode fn s (path ++ [ t.name]) t with
        | (s1, .ok) => walkList fn s1 path rest
        | (s1, .skipDir) =>
            if t.isDir then walkList fn s1 path rest else (s1, .skipDir)
        | (s1, .fail e1) => (s1, .fail e1)

end

/-- Embedding of Go `filepath.Walk`: run the walk from the root and convert
`SkipDir` to a nil error. -/
def goWalk (fn : WalkFn σ) (s : σ) (root : FSNode) : σ × Option String :=
  match walkNode fn s [root.name] root with
  | (s1, .fail e) => (s1, some e)
  | (s1, _) => (s1, none)

/-- The walk callback of `calculateDirSize`: abort on any error, otherwise add
the size of every non-directory entry. -/
def sizeWalkFn : WalkFn Int := fun s _path info err =>
  match err with
  | some e => (s, .fail e)
  | none =>
      match info with
      | some t => if t.isDir then (s, .ok) else (s + t.size, .ok)
      | none => (s, .ok)

/-- Embedding of `calculateDirSize`: returns the accumulated size together
with the error returned by the walk (Go returns both `size` and `err`). -/
def calculateDirSize (t : FSNode) : Int × Option String :=
  goWalk sizeWalkFn 0 t

/-- A discovered node_modules directory with its computed size. -/
structure Directory where
  path : List String
  size : Int
deriving DecidableEq

/-- The walk callback of `findNodeModules`: skip every error and continue; on
a directory named node_modules record the match and return `SkipDir`.  The
spawned goroutine sizes the matched subtree, so the match is recorded as the
pair of its path and its subtree. -/
def findWalkFn : WalkFn (List (List String × FSNode)) := fun s path info err =>
  match err with
  | some _ => (s, .ok)
  | none =>
      match info with
      | some t =>
          if t.isDir && t.name == "node_modules" then
            (s ++ [(path, t)], .skipDir)
          else (s, .ok)
      | none => (s, .ok)

/-- The body of the sizing goroutine for one match: compute the size of the
matched subtree and append an entry only when the computation succeeded. -/
def sizedEntry (pn : List String × FSNode) : Option Directory :=
  match calculateDirSize pn.2 with
  | (sz, none) => some ⟨pn.1, sz⟩
  | (_, some _) => none

/-- Embedding of `findNodeModules`: walk the root collecting matches (the
goroutine completion order is nondeterministic in Go; the model keeps
discovery order), then keep exactly the matches whose sizing succeeded. -/
def findNodeModules (root : FSNode) : List Directory × Option String :=
  match goWalk findWalkFn [] root with
  | (pairs, err) => (pairs.filterMap sizedEntry, err)

/-!
Structural characterizations of the two walks, used as the specification side
of the theorems below.
-/

mutual

/-- Sum of the size attributes of all non-directory entries of a tree
(directories contribute zero). -/
def sumSizes : FSNode → Int
  | .file _ sz => sz
  | .broken _ _ => 0
  | .dir _ _ cs => sumSizesList cs

def sumSizesList : List FSNode → Int
  | [] => 0
  | c :: rest => sumSizes c + sumSizesList rest

end

mutual

/-- The first error a depth-first traversal of the tree encounters, if any:
a broken entry or a directory whose listing fails. -/
def firstErr : FSNode → Option String
  | .file _ _ => none
  | .broken _ e => some e
  | .dir _ (some e) _ => some e
  | .dir _ none cs => firstErrList cs

def firstErrList : List FSNode → Option String
  | [] => none
  | c :: rest =>
      match firstErr c with
      | some e => some e
      | none => firstErrList rest

end

mutual

/-- A tree is error free when it contains no broken entry and no directory
whose listing fails. -/
def errorFree : FSNode → Bool
  | .file _ _ => true
  | .broken _ _ => false
  | .dir _ (some _) _ => false
  | .dir _ none cs => errorFreeList cs

def errorFreeList : List FSNode → Bool
  | [] => true
  | c :: rest => errorFree c && errorFreeList rest

end

mutual

/-- Whether the tree contains a directory named node_modules anywhere
(the node itself included). -/
def containsMatch : FSNode → Bool
  | .file _ _ => false
  | .broken _ _ => false
  | .dir n _ cs => n == "node_modules" || containsMatchList cs

def containsMatchList : List FSNode → Bool
  | [] => false
  | c :: rest => containsMatch c || containsMatchList rest

end

mutual

/-- No directory named node_modules contains another one strictly inside it. -/
def noNestedMatch : FSNode → Bool
  | .file _ _ => true
  | .broken _ _ => true
  | .dir n _ cs =>
      if n == "node_modules" then !containsMatchList cs
      else noNestedMatchList cs

def noNestedMatchList : List FSNode → Bool
  | [] => true
  | c :: rest => noNestedMatch c && noNestedMatchList rest

end

/-- Sibling entries of a real filesystem directory have pairwise distinct
names. -/
def namesNodup : List String → Bool
  | [] => true
  | n :: rest => !(rest.contains n) && namesNodup rest

mutual

/-- Well-formedness of the tree as a filesystem: distinct sibling names. -/
def wfNames : FSNode → Bool
  | .file _ _ => true
  | .broken _ _ => true
  | .dir _ _ cs => namesNodup (cs.map FSNode.name) && wfNamesList cs

def wfNamesList : List FSNode → Bool
  | [] => true
  | c :: rest => wfNames c && wfNamesList rest

end

mutual

/-- The paths of all directories named node_modules anywhere in the tree
(nested occurrences included), in depth-first order. -/
def allMatchPaths (path : List String) : FSNode → List (List String)
  | .file _ _ => []
  | .broken _ _ => []
  | .dir n _ cs =>
      (if n == "node_modules" then [path] else []) ++ allMatchPathsList path cs

def allMatchPathsList (path : List String) : List FSNode → List (List String)
  | [] => []
  | c :: rest =>
      allMatchPaths (path ++ [c.name]) c ++ allMatchPathsList path rest

end

mutual

/-- The matches the pruned traversal of `findNodeModules` reports: a readable
directory named node_modules is reported and not descended into; a directory
whose listing fails is skipped entirely; other directories are descended
into. -/
def prunedMatches (path : List String) : FSNode → List (List String × FSNode)
  | .file _ _ => []
  | .broken _ _ => []
  | .dir _ (some _) _ => []
  | .dir n none cs =>
      if n == "node_modules" then [(path, .dir n none cs)]
      else prunedMatchesList path cs

def prunedMatchesList (path : List String) : List FSNode → List (List String × FSNode)
  | [] => []
  | c :: rest =>
      prunedMatches (path ++ [c.name]) c ++ prunedMatchesList path rest

end

/-- The control value the find callback causes the walk of a subtree to
return. -/
def findCtl : FSNode → WalkCtl
  | .file _ _ => .ok
  | .broken _ _ => .ok
  | .dir _ (some _) _ => .ok
  | .dir n none _ => if n == "node_modules" then .skipDir else .ok

/-!
Embedding of `formatSize`.  The Go function prints `float64(bytes)/float64(div)`
with one fractional digit.  For every byte count below 2^53 both the
conversion to float64 and the division by the power-of-two divisor are exact,
and the `%.1f` verb rounds the exact value to the nearest tenth with ties to
even; the model computes that rounding directly on integers.  The character
indexing `"KMGTPE"[exp]` would panic if `exp` exceeded 5, which the model
renders as `none`; the bound lemmas below show this cannot happen for int64
inputs.
-/

def units : List Char := ['K', 'M', 'G', 'T', 'P', 'E']

/-- The divisor/exponent loop of `formatSize`:
`for n := bytes / unit; n >= unit; n /= unit { div *= unit; exp++ }`. -/
def fmtLoop (n d e : Nat) : Nat × Nat :=
  if 1024 ≤ n then fmtLoop (n / 1024) (d * 1024) (e + 1)
  else (d, e)
termination_by n
decreasing_by exact Nat.div_lt_self (by omega) (by omega)

/-- Round `num / den` to the nearest integer, ties to even (the rounding the
`%.1f` verb applies to an exactly represented value). -/
def roundHalfEven (num den : Nat) : Nat :=
  let q := num / den
  let r := num % den
  if 2 * r < den then q
  else if den < 2 * r then q + 1
  else if q % 2 = 0 then q else q + 1

/-- Embedding of `formatSize`.  `none` models the panic of `"KMGTPE"[exp]` on
an out-of-range exponent (unreachable for int64 inputs). -/
def formatSize (bytes : Int) : Option String :=
  if bytes < 1024 then some (toString bytes ++ " B")
  else
    let b := bytes.toNat
    match fmtLoop (b / 1024) 1024 0 with
    | (d, e) =>
      match units.get? e with
      | none => none
      | some c =>
          let t := roundHalfEven (10 * b) d
          some (toString (t / 10) ++ "." ++ toString (t % 10) ++
            " " ++ String.mk [c] ++ "B")

/-- The unit tier `formatSize` selects: 0 for the plain byte branch, `e + 1`
for the scaled branch with exponent `e` (so B < K < M < G < T < P < E). -/
def unitTier (bytes : Int) : Nat :=
  if bytes < 1024 then 0 else (fmtLoop (bytes.toNat / 1024) 1024 0).2 + 1

/-!
Embedding of `deleteDirectory` and the bounded deletion worker pool of `main`.
The removal of one directory is abstracted by an oracle
`rm : Directory → Option String` giving the error `os.RemoveAll` returns, if
any.  The pool is modelled as a transition system: one worker per selected
entry, a worker in its removal phase holds one of the `maxConcurrent` slots of
the semaphore channel.
-/

/-- Paths are joined with the separator, as `filepath.Walk` does on unix. -/
def pathString (p : List String) : String := String.intercalate "/" p

/-- Embedding of `deleteDirectory`: on failure the underlying error is wrapped
with the path (`fmt.Errorf("failed to delete %s: %w", dir.path, err)`);
`none` is success. -/
def deleteDirectory (rm : Directory → Option String) (d : Directory) : Option String :=
  match rm d with
  | some e => some ("failed to delete " ++ pathString d.path ++ ": " ++ e)
  | none => none

inductive WStatus where
  | pending
  | removing
  | done
deriving DecidableEq

/-- One status per spawned deletion worker. -/
structure PoolState where
  status : List WStatus
deriving DecidableEq

/-- How many workers are simultaneously in their removal phase, which is
exactly how many semaphore slots are taken. -/
def removingCount (s : PoolState) : Nat := s.status.count .removing

/-- `const maxConcurrent = 3` in `main`. -/
def maxConcurrent : Nat := 3

/-- The two observable transitions of a deletion worker: acquiring the
semaphore slot before starting the removal (blocked while the channel buffer
is full), and finishing — successfully or not — which releases the slot via
the deferred receive. -/
inductive PoolStep : PoolState → PoolState → Prop where
  | acquire (s : PoolState) (i : Nat)
      (h : s.status.get? i = some .pending)
      (hc : removingCount s < maxConcurrent) :
      PoolStep s ⟨s.status.set i .removing⟩
  | finish (s : PoolState) (i : Nat)
      (h : s.status.get? i = some .removing) :
      PoolStep s ⟨s.status.set i .done⟩

/-- The pool right after `main` spawned one goroutine per selected entry. -/
def initPool (k : Nat) : PoolState := ⟨List.replicate k .pending⟩

/-- The states a deletion run over `k` selected entries can reach. -/
def PoolReachable (k : Nat) (s : PoolState) : Prop :=
  Relation.ReflTransGen PoolStep (initPool k) s

/-! Characterization of the find walk. -/

/-- The find callback never makes the walk of a subtree return an error. -/
theorem findCtl_ne_fail (t : FSNode) (e : String) : findCtl t ≠ .fail e := by
  cases t with
  | file n sz => simp [findCtl]
  | broken n e1 => simp [findCtl]
  | dir n r cs =>
      cases r with
      | some e1 => simp [findCtl]
      | none =>
          simp only [findCtl]
          split <;> simp

mutual

theorem findWalkNode_eq (t : FSNode) (s : List (List String × FSNode))
    (path : List String) :
    walkNode findWalkFn s path t = (s ++ prunedMatches path t, findCtl t) := by
  cases t with
  | file n sz => simp [walkNode, findWalkFn, prunedMatches, findCtl, FSNode.isDir]
  | broken n e => simp [walkNode, findWalkFn, prunedMatches, findCtl]
  | dir n r cs =>
      cases r with
      | some e => simp [walkNode, findWalkFn, prunedMatches, findCtl]
      | none =>
          cases h : (n == "node_modules") with
          | true =>
              simp [walkNode, findWalkFn, prunedMatches, findCtl, FSNode.isDir,
                FSNode.name, h]
          | false =>
              have hl := findWalkList_eq cs s path
              simp [walkNode, findWalkFn, prunedMatches, findCtl, FSNode.isDir,
                FSNode.name, h, hl]

theorem findWalkList_eq (cs : List FSNode) (s : List (List String × FSNode))
    (path : List String) :
    walkList findWalkFn s path cs = (s ++ prunedMatchesList path cs, .ok) := by
  cases cs with
  | nil => simp [walkList, prunedMatchesList]
  | cons c rest =>
      cases c with
      | broken n e =>
          have hl := findWalkList_eq rest s path
          simp [walkList, findWalkFn, prunedMatchesList, prunedMatches, hl]
      | file n sz =>
          have hn := findWalkNode_eq (.file n sz) s (path ++ [ FSNode.name (.file n sz)])
          have hl := findWalkList_eq rest s path
          simp [walkList, hn, findCtl, prunedMatches, prunedMatchesList, hl]
      | dir n r cs2 =>
          have hn := findWalkNode_eq (.dir n r cs2) s
            (path ++ [ FSNode.name (.dir n r cs2)])
          rcases hc : findCtl (.dir n r cs2) with _ | _ | e
          · have hl := findWalkList_eq rest
              (s ++ prunedMatches (path ++ [ FSNode.name (.dir n r cs2)]) (.dir n r cs2)) path
            simp [walkList, hn, hc, prunedMatchesList, hl]
          · have hl := findWalkList_eq rest
              (s ++ prunedMatches (path ++ [ FSNode.name (.dir n r cs2)]) (.dir n r cs2)) path
            simp [walkList, hn, hc, FSNode.isDir, prunedMatchesList, hl]
          · exact absurd hc (findCtl_ne_fail _ e)

end

/-- `findNodeModules` computes exactly the sized pruned matches and always a
nil error. -/
theorem findNodeModules_eq (t : FSNode) :
    findNodeModules t = ((prunedMatches [ FSNode.name t] t).filterMap sizedEntry, none) := by
  have hn := findWalkNode_eq t [] [ FSNode.name t]
  rcases hc : findCtl t with _ | _ | e
  · simp [findNodeModules, goWalk, hn, hc]
  · simp [findNodeModules, goWalk, hn, hc]
  · exact absurd hc (findCtl_ne_fail t e)

/-- C5: the walk never aborts, and the result consists exactly of the matches
whose size computation succeeded — a failed sizing only drops its own entry. -/
theorem claim_C5 (t : FSNode) :
    (findNodeModules t).2 = none ∧
    (findNodeModules t).1 = (prunedMatches [ FSNode.name t] t).filterMap sizedEntry := by
  rw [findNodeModules_eq t]
  exact ⟨rfl, rfl⟩

/-- C2 counterexample: on a nonexistent root the walk callback swallows the
root error, so `findNodeModules` returns a nil error — not the non-nil error
the claim requires. -/
theorem claim_C2_counterexample :
    findNodeModules (.broken "missing" "ENOENT") = ([], none) := by
  rfl

/-- C2 amended: `findNodeModules` never surfaces an error: the walk callback
returns nil on every error, the root included, so the returned error is
always nil. -/
theorem claim_C2_amended (t : FSNode) : (findNodeModules t).2 = none := by
  rw [findNodeModules_eq t]

/-! Characterization of the size walk. -/

/-- The control value an error argument turns into for the size callback. -/
def errCtl : Option String → WalkCtl
  | some e => .fail e
  | none => .ok

mutual

theorem sizeWalkNode_eq (t : FSNode) (s : Int) (path : List String)
    (h : errorFree t = true) :
    walkNode sizeWalkFn s path t = (s + sumSizes t, .ok) := by
  cases t with
  | file n sz => simp [walkNode, sizeWalkFn, sumSizes, FSNode.isDir, FSNode.size]
  | broken n e => simp [errorFree] at h
  | dir n r cs =>
      cases r with
      | some e => simp [errorFree] at h
      | none =>
          have hl := sizeWalkList_eq cs s path (by simpa [errorFree] using h)
          simp [walkNode, sizeWalkFn, FSNode.isDir, hl, sumSizes]

theorem sizeWalkList_eq (cs : List FSNode) (s : Int) (path : List String)
    (h : errorFreeList cs = true) :
    walkList sizeWalkFn s path cs = (s + sumSizesList cs, .ok) := by
  cases cs with
  | nil => simp [walkList, sumSizesList]
  | cons c rest =>
      rw [errorFreeList] at h
      have h1 : errorFree c = true := by
        cases he : errorFree c <;> simp [he] at h ⊢
      have h2 : errorFreeList rest = true := by
        cases hr : errorFreeList rest <;> simp [hr] at h ⊢
      cases c with
      | broken n e => simp [errorFree] at h1
      | file n sz =>
          have hn := sizeWalkNode_eq (.file n sz) s (path ++ [ FSNode.name (.file n sz)]) h1
          have hl := sizeWalkList_eq rest (s + sumSizes (.file n sz)) path h2
          simp [walkList, hn, hl, sumSizesList, add_assoc]
      | dir n r cs2 =>
          have hn := sizeWalkNode_eq (.dir n r cs2) s
            (path ++ [ FSNode.name (.dir n r cs2)]) h1
          have hl := sizeWalkList_eq rest (s + sumSizes (.dir n r cs2)) path h2
          simp [walkList, hn, hl, sumSizesList, add_assoc]

end

mutual

theorem sizeWalkNode_err (t : FSNode) (s : Int) (path : List String) :
    (walkNode sizeWalkFn s path t).2 = errCtl (firstErr t) := by
  cases t with
  | file n sz => simp [walkNode, sizeWalkFn, firstErr, errCtl, FSNode.isDir]
  | broken n e => simp [walkNode, sizeWalkFn, firstErr, errCtl]
  | dir n r cs =>
      cases r with
      | some e => simp [walkNode, sizeWalkFn, firstErr, errCtl]
      | none =>
          have hl := sizeWalkList_err cs s path
          simp [walkNode, sizeWalkFn, FSNode.isDir, firstErr, hl]

theorem sizeWalkList_err (cs : List FSNode) (s : Int) (path : List String) :
    (walkList sizeWalkFn s path cs).2 = errCtl (firstErrList cs) := by
  cases cs with
  | nil => simp [walkList, firstErrList, errCtl]
  | cons c rest =>
      cases c with
      | broken n e => simp [walkList, sizeWalkFn, firstErrList, firstErr, errCtl]
      | file n sz =>
          rcases h2 : walkNode sizeWalkFn s (path ++ [ FSNode.name (.file n sz)])
              (.file n sz) with ⟨s1, ctl⟩
          have hn := sizeWalkNode_err (.file n sz) s (path ++ [ FSNode.name (.file n sz)])
          rw [h2] at hn
          rcases he : firstErr (.file n sz) with _ | e1
          · rw [he] at hn
            have hctl : ctl = WalkCtl.ok := by simpa [errCtl] using hn
            subst hctl
            have hl := sizeWalkList_err rest s1 path
            simp [walkList, h2, errCtl, firstErrList, he, hl]
          · rw [he] at hn
            have hctl : ctl = WalkCtl.fail e1 := by simpa [errCtl] using hn
            subst hctl
            simp [walkList, h2, errCtl, firstErrList, he]
      | dir n r cs2 =>
          rcases h2 : walkNode sizeWalkFn s (path ++ [ FSNode.name (.dir n r cs2)])
              (.dir n r cs2) with ⟨s1, ctl⟩
          have hn := sizeWalkNode_err (.dir n r cs2) s
            (path ++ [ FSNode.name (.dir n r cs2)])
          rw [h2] at hn
          rcases he : firstErr (.dir n r cs2) with _ | e1
          · rw [he] at hn
            have hctl : ctl = WalkCtl.ok := by simpa [errCtl] using hn
            subst hctl
            have hl := sizeWalkList_err rest s1 path
            simp [walkList, h2, errCtl, firstErrList, he, hl]
          · rw [he] at hn
            have hctl : ctl = WalkCtl.fail e1 := by simpa [errCtl] using hn
            subst hctl
            simp [walkList, h2, errCtl, firstErrList, he]

end

/-- C3: on an error-free tree, `calculateDirSize` returns the sum of the
sizes of all non-directory entries, with a nil error; an empty directory sums
to 0. -/
theorem claim_C3 (t : FSNode) (h : errorFree t = true) :
    calculateDirSize t = (sumSizes t, none) := by
  have hn := sizeWalkNode_eq t 0 [ FSNode.name t] h
  simp [calculateDirSize, goWalk, hn]

/-- C3 witness: the empty directory computes to 0 bytes with no error. -/
theorem claim_C3_witness :
    errorFree (.dir "empty" none []) = true ∧
    calculateDirSize (.dir "empty" none []) = (0, none) :=
  ⟨rfl, claim_C3 (.dir "empty" none []) rfl⟩

/-- C4: `calculateDirSize` is all-or-nothing: its error result is exactly the
first error the traversal encounters — non-nil as soon as any part of the
traversal fails, nil only when the whole traversal succeeded. -/
theorem claim_C4 (t : FSNode) : (calculateDirSize t).2 = firstErr t := by
  rcases h2 : walkNode sizeWalkFn 0 [ FSNode.name t] t with ⟨s1, ctl⟩
  have hn := sizeWalkNode_err t 0 [ FSNode.name t]
  rw [h2] at hn
  rcases he : firstErr t with _ | e
  · rw [he] at hn
    have hctl : ctl = WalkCtl.ok := by simpa [errCtl] using hn
    subst hctl
    simp [calculateDirSize, goWalk, h2, he]
  · rw [he] at hn
    have hctl : ctl = WalkCtl.fail e := by simpa [errCtl] using hn
    subst hctl
    simp [calculateDirSize, goWalk, h2, he]

/-! Lemmas about the pruned matches, towards C1. -/

/-- Helper form of C3 shared by the other proofs. -/
theorem calculateDirSize_errorFree (t : FSNode) (h : errorFree t = true) :
    calculateDirSize t = (sumSizes t, none) := by
  have hn := sizeWalkNode_eq t 0 [ FSNode.name t] h
  simp [calculateDirSize, goWalk, hn]

mutual

theorem prunedMatches_errorFree (t : FSNode) (path : List String)
    (h : errorFree t = true) :
    ∀ pn ∈ prunedMatches path t, errorFree pn.2 = true := by
  cases t with
  | file n sz => simp [prunedMatches]
  | broken n e => simp [prunedMatches]
  | dir n r cs =>
      cases r with
      | some e => simp [prunedMatches]
      | none =>
          cases hm : (n == "node_modules") with
          | true =>
              intro pn hpn
              simp [prunedMatches, hm] at hpn
              subst hpn
              exact h
          | false =>
              intro pn hpn
              simp only [prunedMatches, hm, Bool.false_eq_true, if_false] at hpn
              exact prunedMatchesList_errorFree cs path (by simpa [errorFree] using h) pn hpn

theorem prunedMatchesList_errorFree (cs : List FSNode) (path : List String)
    (h : errorFreeList cs = true) :
    ∀ pn ∈ prunedMatchesList path cs, errorFree pn.2 = true := by
  cases cs with
  | nil => simp [prunedMatchesList]
  | cons c rest =>
      rw [errorFreeList] at h
      have h1 : errorFree c = true := by
        cases he : errorFree c <;> simp [he] at h ⊢
      have h2 : errorFreeList rest = true := by
        cases hr : errorFreeList rest <;> simp [hr] at h ⊢
      intro pn hpn
      rw [prunedMatchesList] at hpn
      rcases List.mem_append.mp hpn with hh | ht
      · exact prunedMatches_errorFree c (path ++ [ FSNode.name c]) h1 pn hh
      · exact prunedMatchesList_errorFree rest path h2 pn ht

end

mutual

theorem allMatchPaths_of_no_match (t : FSNode) (path : List String)
    (h : containsMatch t = false) : allMatchPaths path t = [] := by
  cases t with
  | file n sz => simp [allMatchPaths]
  | broken n e => simp [allMatchPaths]
  | dir n r cs =>
      rw [containsMatch] at h
      have hm : (n == "node_modules") = false := by
        cases hx : (n == "node_modules") <;> simp [hx] at h ⊢
      have hc : containsMatchList cs = false := by
        cases hx : containsMatchList cs <;> simp [hx, hm] at h ⊢
      simp [allMatchPaths, hm, allMatchPathsList_of_no_match cs path hc]

theorem allMatchPathsList_of_no_match (cs : List FSNode) (path : List String)
    (h : containsMatchList cs = false) : allMatchPathsList path cs = [] := by
  cases cs with
  | nil => simp [allMatchPathsList]
  | cons c rest =>
      rw [containsMatchList] at h
      have h1 : containsMatch c = false := by
        cases hx : containsMatch c <;> simp [hx] at h ⊢
      have h2 : containsMatchList rest = false := by
        cases hx : containsMatchList rest <;> simp [hx, h1] at h ⊢
      simp [allMatchPathsList, allMatchPaths_of_no_match c _ h1,
        allMatchPathsList_of_no_match rest path h2]

end

mutual

theorem prunedMatches_paths (t : FSNode) (path : List String)
    (hf : errorFree t = true) (hn : noNestedMatch t = true) :
    (prunedMatches path t).map Prod.fst = allMatchPaths path t := by
  cases t with
  | file n sz => simp [prunedMatches, allMatchPaths]
  | broken n e => simp [prunedMatches, allMatchPaths]
  | dir n r cs =>
      cases r with
      | some e => simp [errorFree] at hf
      | none =>
          cases hm : (n == "node_modules") with
          | true =>
              rw [noNestedMatch] at hn
              rw [hm] at hn
              simp only [if_true] at hn
              have hc : containsMatchList cs = false := by
                cases hx : containsMatchList cs <;> simp [hx] at hn ⊢
              simp [prunedMatches, allMatchPaths, hm,
                allMatchPathsList_of_no_match cs path hc]
          | false =>
              rw [noNestedMatch] at hn
              rw [hm] at hn
              simp only [Bool.false_eq_true, if_false] at hn
              simp [prunedMatches, allMatchPaths, hm,
                prunedMatchesList_paths cs path (by simpa [errorFree] using hf) hn]

theorem prunedMatchesList_paths (cs : List FSNode) (path : List String)
    (hf : errorFreeList cs = true) (hn : noNestedMatchList cs = true) :
    (prunedMatchesList path cs).map Prod.fst = allMatchPathsList path cs := by
  cases cs with
  | nil => simp [prunedMatchesList, allMatchPathsList]
  | cons c rest =>
      rw [errorFreeList] at hf
      rw [noNestedMatchList] at hn
      have hf1 : errorFree c = true := by
        cases he : errorFree c <;> simp [he] at hf ⊢
      have hf2 : errorFreeList rest = true := by
        cases hr : errorFreeList rest <;> simp [hr] at hf ⊢
      have hn1 : noNestedMatch c = true := by
        cases he : noNestedMatch c <;> simp [he] at hn ⊢
      have hn2 : noNestedMatchList rest = true := by
        cases hr : noNestedMatchList rest <;> simp [hr, hn1] at hn ⊢
      simp [prunedMatchesList, allMatchPathsList,
        prunedMatches_paths c (path ++ [ FSNode.name c]) hf1 hn1,
        prunedMatchesList_paths rest path hf2 hn2]

end

/-- Two prefixes of the same list with the same length coincide. -/
theorem prefix_eq_of_length_eq {α : Type} {l p q : List α}
    (hp : p <+: l) (hq : q <+: l) (h : p.length = q.length) : p = q := by
  rw [List.prefix_iff_eq_take.mp hp, List.prefix_iff_eq_take.mp hq, h]

mutual

theorem prunedMatches_path_le (t : FSNode) (path : List String) :
    ∀ pn ∈ prunedMatches path t, path <+: pn.1 := by
  cases t with
  | file n sz => simp [prunedMatches]
  | broken n e => simp [prunedMatches]
  | dir n r cs =>
      cases r with
      | some e => simp [prunedMatches]
      | none =>
          cases hm : (n == "node_modules") with
          | true =>
              intro pn hpn
              simp [prunedMatches, hm] at hpn
              subst hpn
              exact List.prefix_refl path
          | false =>
              intro pn hpn
              simp only [prunedMatches, hm, Bool.false_eq_true, if_false] at hpn
              rcases prunedMatchesList_path_le cs path pn hpn with ⟨c, _, hc⟩
              exact List.IsPrefix.trans ⟨[ FSNode.name c], rfl⟩ hc

theorem prunedMatchesList_path_le (cs : List FSNode) (path : List String) :
    ∀ pn ∈ prunedMatchesList path cs,
      ∃ c, c ∈ cs ∧ (path ++ [ FSNode.name c]) <+: pn.1 := by
  cases cs with
  | nil => simp [prunedMatchesList]
  | cons c rest =>
      intro pn hpn
      rw [prunedMatchesList] at hpn
      rcases List.mem_append.mp hpn with hh | ht
      · exact ⟨c, List.mem_cons_self c rest,
          prunedMatches_path_le c (path ++ [ FSNode.name c]) pn hh⟩
      · rcases prunedMatchesList_path_le rest path pn ht with ⟨c2, hc2, hpre⟩
        exact ⟨c2, List.mem_cons_of_mem c hc2, hpre⟩

end

mutual

theorem prunedMatches_prefix_free (t : FSNode) (path : List String)
    (hw : wfNames t = true) :
    ∀ pn qn, pn ∈ prunedMatches path t → qn ∈ prunedMatches path t →
      pn.1 ≠ qn.1 → ¬ (pn.1 <+: qn.1) := by
  cases t with
  | file n sz => simp [prunedMatches]
  | broken n e => simp [prunedMatches]
  | dir n r cs =>
      cases r with
      | some e => simp [prunedMatches]
      | none =>
          cases hm : (n == "node_modules") with
          | true =>
              intro pn qn hp hq hne
              simp [prunedMatches, hm] at hp hq
              rw [hp, hq] at hne
              exact absurd rfl hne
          | false =>
              rw [wfNames] at hw
              have h1 : namesNodup (cs.map FSNode.name) = true := by
                cases hx : namesNodup (cs.map FSNode.name) <;> simp [hx] at hw ⊢
              have h2 : wfNamesList cs = true := by
                cases hx : wfNamesList cs <;> simp [hx, h1] at hw ⊢
              intro pn qn hp hq
              simp only [prunedMatches, hm, Bool.false_eq_true, if_false] at hp hq
              exact prunedMatchesList_prefix_free cs path h1 h2 pn qn hp hq

theorem prunedMatchesList_prefix_free (cs : List FSNode) (path : List String)
    (hnd : namesNodup (cs.map FSNode.name) = true) (hw : wfNamesList cs = true) :
    ∀ pn qn, pn ∈ prunedMatchesList path cs → qn ∈ prunedMatchesList path cs →
      pn.1 ≠ qn.1 → ¬ (pn.1 <+: qn.1) := by
  cases cs with
  | nil => simp [prunedMatchesList]
  | cons c rest =>
      rw [List.map_cons, namesNodup] at hnd
      simp only [Bool.and_eq_true, Bool.not_eq_true'] at hnd
      have hnc : ((List.map FSNode.name rest).contains (FSNode.name c)) = false := hnd.1
      have hnd2 : namesNodup (rest.map FSNode.name) = true := hnd.2
      rw [wfNamesList] at hw
      have hw1 : wfNames c = true := by
        cases hx : wfNames c <;> simp [hx] at hw ⊢
      have hw2 : wfNamesList rest = true := by
        cases hx : wfNamesList rest <;> simp [hx, hw1] at hw ⊢
      have hname : ∀ c2 ∈ rest, FSNode.name c2 ≠ FSNode.name c := by
        intro c2 hc2 heq
        have hmem : FSNode.name c ∈ List.map FSNode.name rest :=
          heq ▸ List.mem_map_of_mem FSNode.name hc2
        have hnc2 : (FSNode.name c) ∉ List.map FSNode.name rest := by
          simpa using hnc
        exact hnc2 hmem
      intro pn qn hp hq hne hpre
      rw [prunedMatchesList] at hp hq
      rcases List.mem_append.mp hp with hph | hpt <;>
        rcases List.mem_append.mp hq with hqh | hqt
      · exact prunedMatches_prefix_free c (path ++ [ FSNode.name c]) hw1
          pn qn hph hqh hne hpre
      · -- pn under the head child, qn under a later child with a distinct name
        have hp1 : (path ++ [ FSNode.name c]) <+: pn.1 :=
          prunedMatches_path_le c (path ++ [ FSNode.name c]) pn hph
        rcases prunedMatchesList_path_le rest path qn hqt with ⟨c2, hc2, hq1⟩
        have hcq : (path ++ [ FSNode.name c]) <+: qn.1 := hp1.trans hpre
        have heq := prefix_eq_of_length_eq hcq hq1 (by simp)
        have := List.append_cancel_left heq
        simp at this
        exact hname c2 hc2 this.symm
      · have hq1 : (path ++ [ FSNode.name c]) <+: qn.1 :=
          prunedMatches_path_le c (path ++ [ FSNode.name c]) qn hqh
        rcases prunedMatchesList_path_le rest path pn hpt with ⟨c2, hc2, hp1⟩
        have hcq : (path ++ [ FSNode.name c2]) <+: qn.1 := hp1.trans hpre
        have heq := prefix_eq_of_length_eq hcq hq1 (by simp)
        have := List.append_cancel_left heq
        simp at this
        exact hname c2 hc2 this
      · exact prunedMatchesList_prefix_free rest path hnd2 hw2 pn qn hpt hqt hne hpre

end

/-- On an error-free match list every sizing succeeds, so the reported paths
are exactly the match paths. -/
theorem filterMap_sized_paths (l : List (List String × FSNode))
    (h : ∀ pn ∈ l, errorFree pn.2 = true) :
    (l.filterMap sizedEntry).map Directory.path = l.map Prod.fst := by
  induction l with
  | nil => simp
  | cons pn rest ih =>
      have h1 : errorFree pn.2 = true := h pn (List.mem_cons_self pn rest)
      have h2 : ∀ qn ∈ rest, errorFree qn.2 = true := fun qn hq =>
        h qn (List.mem_cons_of_mem pn hq)
      have hs : sizedEntry pn = some ⟨pn.1, sumSizes pn.2⟩ := by
        simp [sizedEntry, calculateDirSize_errorFree pn.2 h1]
      simp [hs, ih h2]

/-- A reported entry keeps the path of its match. -/
theorem sizedEntry_path (pn : List String × FSNode) (d : Directory)
    (h : sizedEntry pn = some d) : d.path = pn.1 := by
  rcases hc : calculateDirSize pn.2 with ⟨sz, err⟩
  cases err with
  | none =>
      rw [sizedEntry, hc] at h
      cases h
      rfl
  | some e =>
      rw [sizedEntry, hc] at h
      cases h

/-- C1: on an error-free tree with no nested matches the reported paths are
exactly the paths of all directories named node_modules (so exactly N entries
for N matches); and on any well-named tree no reported path lies strictly
inside another reported match — traversal does not descend into a match. -/
theorem claim_C1 (t : FSNode) :
    (errorFree t = true → noNestedMatch t = true →
      (findNodeModules t).1.map Directory.path = allMatchPaths [ FSNode.name t] t) ∧
    (wfNames t = true → ∀ p q,
      p ∈ (findNodeModules t).1.map Directory.path →
      q ∈ (findNodeModules t).1.map Directory.path →
      p ≠ q → ¬ (p <+: q)) := by
  constructor
  · intro hf hn
    rw [findNodeModules_eq t]
    simp only
    rw [filterMap_sized_paths _ (prunedMatches_errorFree t [ FSNode.name t] hf)]
    exact prunedMatches_paths t [ FSNode.name t] hf hn
  · intro hw p q hp hq hne
    rw [findNodeModules_eq t] at hp hq
    simp only [List.mem_map] at hp hq
    rcases hp with ⟨d1, hd1, hp1⟩
    rcases hq with ⟨d2, hd2, hq1⟩
    rcases List.mem_filterMap.mp hd1 with ⟨pn, hpn, hspn⟩
    rcases List.mem_filterMap.mp hd2 with ⟨qn, hqn, hsqn⟩
    have hp2 : pn.1 = p := by rw [← hp1, sizedEntry_path pn d1 hspn]
    have hq2 : qn.1 = q := by rw [← hq1, sizedEntry_path qn d2 hsqn]
    have := prunedMatches_prefix_free t [ FSNode.name t] hw pn qn hpn hqn
    rw [hp2, hq2] at this
    exact this hne

/-- C1 witness: a tree with two non-nested matches reports exactly both. -/
theorem claim_C1_witness :
    errorFree (.dir "root" none
      [.dir "node_modules" none [.file "a" 5],
       .dir "src" none [.dir "node_modules" none []],
       .file "go.mod" 3]) = true ∧
    noNestedMatch (.dir "root" none
      [.dir "node_modules" none [.file "a" 5],
       .dir "src" none [.dir "node_modules" none []],
       .file "go.mod" 3]) = true ∧
    wfNames (.dir "root" none
      [.dir "node_modules" none [.file "a" 5],
       .dir "src" none [.dir "node_modules" none []],
       .file "go.mod" 3]) = true ∧
    (findNodeModules (.dir "root" none
      [.dir "node_modules" none [.file "a" 5],
       .dir "src" none [.dir "node_modules" none []],
       .file "go.mod" 3])).1.map Directory.path =
      allMatchPaths ["root"] (.dir "root" none
        [.dir "node_modules" none [.file "a" 5],
         .dir "src" none [.dir "node_modules" none []],
         .file "go.mod" 3]) ∧
    ¬ (["root", "node_modules"] <+:
        ["root", "src", "node_modules"]) := by
  refine ⟨rfl, rfl, rfl, (claim_C1 _).1 rfl rfl, ?_⟩
  exact (claim_C1 (.dir "root" none
      [.dir "node_modules" none [.file "a" 5],
       .dir "src" none [.dir "node_modules" none []],
       .file "go.mod" 3])).2 rfl
    ["root", "node_modules"] ["root", "src", "node_modules"]
    (by decide) (by decide) (by decide)

/-! Lemmas about the unit-selection loop of `formatSize`. -/

theorem fmtLoop_exp_ge (n d e : Nat) : e ≤ (fmtLoop n d e).2 := by
  induction n using Nat.strong_induction_on generalizing d e with
  | _ n ih =>
    rw [fmtLoop]
    split
    · refine le_trans (Nat.le_succ e) ?_
      exact ih (n / 1024) (Nat.div_lt_self (by omega) (by omega)) (d * 1024) (e + 1)
    · simp

theorem fmtLoop_exp_mono (n1 n2 d e : Nat) (h : n1 ≤ n2) :
    (fmtLoop n1 d e).2 ≤ (fmtLoop n2 d e).2 := by
  induction n2 using Nat.strong_induction_on generalizing n1 d e with
  | _ n2 ih =>
    by_cases h1 : 1024 ≤ n1
    · conv_lhs => rw [fmtLoop]
      conv_rhs => rw [fmtLoop]
      rw [if_pos h1, if_pos (le_trans h1 h)]
      exact ih (n2 / 1024) (Nat.div_lt_self (by omega) (by omega)) (n1 / 1024)
        (d * 1024) (e + 1) (Nat.div_le_div_right h)
    · conv_lhs => rw [fmtLoop, if_neg h1]
      exact fmtLoop_exp_ge n2 d e

theorem fmtLoop_exp_bound (k : Nat) : ∀ n d e, n < 1024 ^ (k + 1) →
    (fmtLoop n d e).2 ≤ e + k := by
  induction k with
  | zero =>
      intro n d e h
      rw [fmtLoop, if_neg (by simpa using h)]
      simp
  | succ k ih =>
      intro n d e h
      by_cases h1 : 1024 ≤ n
      · rw [fmtLoop, if_pos h1]
        have hlt : n / 1024 < 1024 ^ (k + 1) := by
          rw [Nat.div_lt_iff_lt_mul (by omega)]
          calc n < 1024 ^ (k + 2) := h
          _ = 1024 ^ (k + 1) * 1024 := by ring
        have := ih (n / 1024) (d * 1024) (e + 1) hlt
        omega
      · rw [fmtLoop, if_neg h1]
        omega

theorem units_get_of_le (e : Nat) (h : e ≤ 5) : ∃ c, units.get? e = some c := by
  interval_cases e <;> exact ⟨_, rfl⟩

/-- On an int64-sized input at least 1024, `formatSize` takes the scaled
branch: the unit index stays in range and the output is an integer part, a
point, one digit, a space, the unit letter and B. -/
theorem formatSize_large (b : Int) (h1 : 1024 ≤ b) (h2 : b < 2 ^ 63) :
    ∃ (c : Char) (nn dd : Nat),
      units.get? ((fmtLoop (b.toNat / 1024) 1024 0).2) = some c ∧ dd < 10 ∧
      formatSize b = some (toString nn ++ "." ++ toString dd ++
        " " ++ String.mk [c] ++ "B") := by
  have hnlt : ¬ (b < 1024) := by omega
  have hp : (2 : Int) ^ 63 = 9223372036854775808 := by norm_num
  have hbn : b.toNat < 9223372036854775808 := by omega
  have hn6 : b.toNat / 1024 < 1024 ^ 6 := by
    rw [Nat.div_lt_iff_lt_mul (by norm_num)]
    calc b.toNat < 9223372036854775808 := hbn
    _ ≤ 1024 ^ 6 * 1024 := by norm_num
  have hexp : (fmtLoop (b.toNat / 1024) 1024 0).2 ≤ 5 := by
    have := fmtLoop_exp_bound 5 (b.toNat / 1024) 1024 0 (by simpa using hn6)
    omega
  rcases hde : fmtLoop (b.toNat / 1024) 1024 0 with ⟨d, e⟩
  have he5 : e ≤ 5 := by rw [hde] at hexp; exact hexp
  rcases units_get_of_le e he5 with ⟨c, hc⟩
  refine ⟨c, roundHalfEven (10 * b.toNat) d / 10, roundHalfEven (10 * b.toNat) d % 10,
    ?_, Nat.mod_lt _ (by norm_num), ?_⟩
  · simpa using hc
  · simp only [formatSize]
    rw [if_neg hnlt, hde, hc]

/-- C6: the fixed `formatSize` test vectors; every count below 1024 renders
as the integer count with suffix B; every larger int64 count renders with
exactly one fractional digit. -/
theorem claim_C6 :
    formatSize 0 = some "0 B" ∧
    formatSize 1023 = some "1023 B" ∧
    formatSize 1024 = some "1.0 KB" ∧
    formatSize 1536 = some "1.5 KB" ∧
    formatSize (1024 * 1024) = some "1.0 MB" ∧
    (∀ b : Int, b < 1024 → formatSize b = some (toString b ++ " B")) ∧
    (∀ b : Int, 1024 ≤ b → b < 2 ^ 63 →
      ∃ (nn dd : Nat) (c : Char), dd < 10 ∧
        formatSize b = some (toString nn ++ "." ++ toString dd ++
          " " ++ String.mk [c] ++ "B")) := by
  have h1 : fmtLoop 1 1024 0 = (1024, 0) := by
    rw [fmtLoop]
    norm_num
  have h1024 : fmtLoop 1024 1024 0 = (1024 * 1024, 1) := by
    rw [fmtLoop]
    norm_num
    rw [fmtLoop]
    norm_num
  refine ⟨by rfl, by rfl, ?_, ?_, ?_, ?_, ?_⟩
  · simp only [formatSize]
    norm_num
    rw [show ((1024 : Int).toNat / 1024) = 1 from rfl, h1]
    rfl
  · simp only [formatSize]
    norm_num
    rw [show ((1536 : Int).toNat / 1024) = 1 from rfl, h1]
    rfl
  · simp only [formatSize]
    norm_num
    rw [show ((1048576 : Int).toNat / 1024) = 1024 from rfl, h1024]
    rfl
  · intro b hb
    simp [formatSize, hb]
  · intro b hb1 hb2
    rcases formatSize_large b hb1 hb2 with ⟨c, nn, dd, _, hdd, heq⟩
    exact ⟨nn, dd, c, hdd, heq⟩

/-- C6 witness: the below-1024 clause at 10 and the fractional clause at
2048. -/
theorem claim_C6_witness :
    formatSize 10 = some (toString (10 : Int) ++ " B") ∧
    ∃ (nn dd : Nat) (c : Char), dd < 10 ∧
      formatSize 2048 = some (toString nn ++ "." ++ toString dd ++
        " " ++ String.mk [c] ++ "B") :=
  ⟨claim_C6.2.2.2.2.2.1 10 (by norm_num),
   claim_C6.2.2.2.2.2.2 2048 (by norm_num) (by norm_num)⟩

/-- C7: the unit tier `formatSize` selects is monotone in the byte count, and
on the scaled branch the rendered unit letter is the one at that tier. -/
theorem claim_C7 :
    (∀ b1 b2 : Int, b1 ≤ b2 → unitTier b1 ≤ unitTier b2) ∧
    (∀ b : Int, 1024 ≤ b → b < 2 ^ 63 →
      ∃ (c : Char) (num : String), units.get? (unitTier b - 1) = some c ∧
        formatSize b = some (num ++ " " ++ String.mk [c] ++ "B")) := by
  constructor
  · intro b1 b2 h
    by_cases h1 : b1 < 1024
    · rw [unitTier, if_pos h1]
      exact Nat.zero_le _
    · have h2 : ¬ (b2 < 1024) := by omega
      rw [unitTier, if_neg h1, unitTier, if_neg h2]
      have hm : b1.toNat / 1024 ≤ b2.toNat / 1024 :=
        Nat.div_le_div_right (by omega)
      exact Nat.succ_le_succ (fmtLoop_exp_mono _ _ _ _ hm)
  · intro b hb1 hb2
    have hnlt : ¬ (b < 1024) := by omega
    rcases formatSize_large b hb1 hb2 with ⟨c, nn, dd, hget, _, heq⟩
    refine ⟨c, toString nn ++ "." ++ toString dd, ?_, ?_⟩
    · rw [unitTier, if_neg hnlt]
      simpa using hget
    · simpa using heq

/-- C7 witness: 2048 bytes against 5 MB. -/
theorem claim_C7_witness :
    unitTier 2048 ≤ unitTier (5 * 1024 * 1024) ∧
    ∃ (c : Char) (num : String),
      units.get? (unitTier (5 * 1024 * 1024) - 1) = some c ∧
      formatSize (5 * 1024 * 1024) = some (num ++ " " ++ String.mk [c] ++ "B") :=
  ⟨claim_C7.1 2048 (5 * 1024 * 1024) (by norm_num),
   claim_C7.2 (5 * 1024 * 1024) (by norm_num) (by norm_num)⟩

/-- C10: for every byte count below 1024 — negative counts included —
`formatSize` returns the decimal rendering followed by B, and on the whole
int64 range it never fails. -/
theorem claim_C10 :
    (∀ b : Int, b < 1024 → formatSize b = some (toString b ++ " B")) ∧
    (∀ b : Int, -(2 ^ 63) ≤ b → b < 2 ^ 63 → (formatSize b).isSome = true) := by
  constructor
  · intro b hb
    simp [formatSize, hb]
  · intro b _ hb2
    by_cases h1 : b < 1024
    · simp [formatSize, h1]
    · rcases formatSize_large b (by omega) hb2 with ⟨c, nn, dd, _, _, heq⟩
      rw [heq]
      rfl

/-- C10 witness: a negative count renders as a plain byte count. -/
theorem claim_C10_witness :
    formatSize (-5) = some "-5 B" ∧ (formatSize 123456789).isSome = true :=
  ⟨by
    rw [claim_C10.1 (-5) (by norm_num)]
    rfl,
   claim_C10.2 123456789 (by norm_num) (by norm_num)⟩

/-! Invariants of the deletion worker pool. -/

/-- Setting one position of a status list changes a count by the difference
between the old and the new entry. -/
theorem count_set_balance (l : List WStatus) (i : Nat) (a b x : WStatus)
    (h : l.get? i = some a) :
    (l.set i b).count x + (if a = x then 1 else 0) =
      l.count x + (if b = x then 1 else 0) := by
  induction l generalizing i with
  | nil => simp at h
  | cons hd tl ih =>
      cases i with
      | zero =>
          have ha : hd = a := by simpa using h
          subst ha
          simp only [List.set, List.count_cons, beq_iff_eq]
          by_cases hax : hd = x <;> by_cases hbx : b = x <;>
            simp [hax, hbx]
      | succ j =>
          have h2 : tl.get? j = some a := by simpa using h
          have hrec := ih j h2
          simp only [List.set, List.count_cons, beq_iff_eq]
          by_cases hhx : hd = x <;> simp [hhx] <;> omega

/-- A pool step never changes the number of workers. -/
theorem poolStep_length {s1 s2 : PoolState} (h : PoolStep s1 s2) :
    s2.status.length = s1.status.length := by
  cases h with
  | acquire i hg hc => simp
  | finish i hg => simp

theorem poolReachable_length (k : Nat) (s : PoolState)
    (h : PoolReachable k s) : s.status.length = k := by
  induction h with
  | refl => simp [initPool]
  | tail hr step ih => rw [poolStep_length step, ih]

/-- C9: in every state a deletion run can reach, at most `maxConcurrent`
workers are simultaneously in their removal phase, and that ceiling is the
fixed constant 3, independent of the number of selected entries. -/
theorem claim_C9 (k : Nat) (s : PoolState) (h : PoolReachable k s) :
    removingCount s ≤ maxConcurrent ∧ maxConcurrent = 3 := by
  refine ⟨?_, rfl⟩
  induction h with
  | refl =>
      have hz : List.count WStatus.removing (List.replicate k WStatus.pending) = 0 :=
        List.count_eq_zero.mpr (by simp [List.mem_replicate])
      simp [initPool, removingCount, hz]
  | @tail s1 s2 hr step ih =>
      cases step with
      | acquire i hg hc =>
          have hb := count_set_balance s1.status i .pending .removing .removing hg
          simp only [removingCount, maxConcurrent] at hb ih hc ⊢
          simp at hb
          omega
      | finish i hg =>
          have hb := count_set_balance s1.status i .removing .done .removing hg
          simp only [removingCount, maxConcurrent] at hb ih ⊢
          simp at hb
          omega

/-- C9 witness: the freshly spawned pool of five workers is reachable and
within the ceiling. -/
theorem claim_C9_witness :
    removingCount (initPool 5) ≤ maxConcurrent ∧ maxConcurrent = 3 :=
  claim_C9 5 (initPool 5) Relation.ReflTransGen.refl

/-- C8: a deletion run over the selected entries, once no step remains,
has run every worker to completion — one worker per entry, a failure of one
never preventing the others from finishing — and each failed entry's report
wraps the underlying error with that entry's path. -/
theorem claim_C8 (rm : Directory → Option String) (entries : List Directory)
    (s : PoolState) (h : PoolReachable entries.length s)
    (hstuck : ∀ s2, ¬ PoolStep s s2) :
    s.status.length = entries.length ∧
    (∀ st ∈ s.status, st = WStatus.done) ∧
    (∀ d ∈ entries, deleteDirectory rm d =
      (rm d).map (fun e => "failed to delete " ++ pathString d.path ++ ": " ++ e)) := by
  refine ⟨poolReachable_length entries.length s h, ?_, ?_⟩
  · intro st hmem
    rcases List.get?_of_mem hmem with ⟨i, hi⟩
    cases st with
    | done => rfl
    | removing =>
        exact absurd (PoolStep.finish s i hi) (hstuck _)
    | pending =>
        by_cases hc : removingCount s < maxConcurrent
        · exact absurd (PoolStep.acquire s i hi hc) (hstuck _)
        · have hpos : 0 < s.status.count WStatus.removing := by
            simp only [removingCount, maxConcurrent] at hc
            omega
          have hmem2 : WStatus.removing ∈ s.status := List.count_pos_iff.mp hpos
          rcases List.get?_of_mem hmem2 with ⟨j, hj⟩
          exact absurd (PoolStep.finish s j hj) (hstuck _)
  · intro d _
    cases hr : rm d <;> simp [deleteDirectory, hr]

/-- C8 witness: a finished two-entry run — the first deletion failed, the
second succeeded — reached a terminal state with both workers done, and the
failed entry's report wraps the error with its path. -/
theorem claim_C8_witness :
    (⟨[WStatus.done, WStatus.done]⟩ : PoolState).status.length =
      ([⟨["a", "node_modules"], 5⟩, ⟨["b", "node_modules"], 7⟩] : List Directory).length ∧
    (∀ st ∈ (⟨[WStatus.done, WStatus.done]⟩ : PoolState).status, st = WStatus.done) ∧
    (∀ d ∈ ([⟨["a", "node_modules"], 5⟩, ⟨["b", "node_modules"], 7⟩] : List Directory),
      deleteDirectory (fun d2 => if d2.size = 5 then some "EACCES" else none) d =
        ((fun d2 => if d2.size = 5 then some "EACCES" else none) d).map
          (fun e => "failed to delete " ++ pathString d.path ++ ": " ++ e)) := by
  have st1 : PoolStep (initPool 2) ⟨[.removing, .pending]⟩ :=
    PoolStep.acquire (initPool 2) 0 rfl (by decide)
  have st2 : PoolStep ⟨[.removing, .pending]⟩ ⟨[.done, .pending]⟩ :=
    PoolStep.finish ⟨[.removing, .pending]⟩ 0 rfl
  have st3 : PoolStep ⟨[.done, .pending]⟩ ⟨[.done, .removing]⟩ :=
    PoolStep.acquire ⟨[.done, .pending]⟩ 1 rfl (by decide)
  have st4 : PoolStep ⟨[.done, .removing]⟩ ⟨[.done, .done]⟩ :=
    PoolStep.finish ⟨[.done, .removing]⟩ 1 rfl
  have hreach : PoolReachable 2 ⟨[.done, .done]⟩ :=
    Relation.ReflTransGen.tail (Relation.ReflTransGen.tail
      (Relation.ReflTransGen.tail (Relation.ReflTransGen.single st1) st2) st3) st4
  have hstuck : ∀ s2, ¬ PoolStep ⟨[WStatus.done, WStatus.done]⟩ s2 := by
    intro s2 hs
    cases hs with
    | acquire i hg hc =>
        rcases i with _ | _ | j <;> simp [List.get?] at hg
    | finish i hg =>
        rcases i with _ | _ | j <;> simp [List.get?] at hg
  exact claim_C8 (fun d2 => if d2.size = 5 then some "EACCES" else none)
    [⟨["a", "node_modules"], 5⟩, ⟨["b", "node_modules"], 7⟩]
    ⟨[.done, .done]⟩ hreach hstuck
